import Mathlib

/-!
Verification of the `auto_trait` procedural attribute (src/lib.rs of the
auto-trait repository).

The embedding mirrors the source function `auto_trait` over a shallow model
of the syntax-tree values it inspects and constructs:

* `Ty`, `PathSegment`, `PathArguments`, `GenericArg`, `TypeParamBound` model
  the slice of the `syn` type grammar the source touches (`syn::Type::Path`
  with the last segment's `PathArguments`, `syn::GenericArgument::Constraint`
  with its bounds, `syn::Type::Paren`); every other shape is collapsed into
  `other`-style constructors, which the source treats uniformly.
* Parsing is an external collaborator (the spec's opaque input channel), so
  parse results arrive pre-parsed: the primary argument as `Option Ty`
  (`none` = parse failure) and each attribute's token tree likewise.
* Token-stream output is modelled structurally: the generated method body
  `{ deref_name::method_name(args,) }` becomes `Block.forward`, a
  pre-existing method body is an opaque `Block.source`, and the final token
  stream is `Output` (the re-emitted declaration plus the impl blocks).
* `Vec::swap_remove` and the `.expect` on the last path segment can panic;
  panics are modelled explicitly (`MacroResult.panicked` / `Failure.panicked`).
-/

mutual

inductive Ty : Type where
  | path (leadingColon : Bool) (segments : List PathSegment) : Ty
  | paren (elem : Ty) : Ty
  | other (tag : String) : Ty

inductive PathSegment : Type where
  | mk (ident : String) (arguments : PathArguments) : PathSegment

inductive PathArguments : Type where
  | noArgs : PathArguments
  | angle (args : List GenericArg) : PathArguments
  | parenthesized : PathArguments

inductive GenericArg : Type where
  | type (t : Ty) : GenericArg
  | constraint (ident : String) (bounds : List TypeParamBound) : GenericArg
  | otherArg (tag : String) : GenericArg

inductive TypeParamBound : Type where
  | traitBound (leadingColon : Bool) (segments : List PathSegment) : TypeParamBound
  | lifetimeBound (l : String) : TypeParamBound

end

/-- `syn::Path::is_ident`: no leading colon, exactly one segment, that segment
has no path arguments and its identifier equals `name`. -/
def isIdentSegs (leadingColon : Bool) (segments : List PathSegment) (name : String) : Bool :=
  match leadingColon, segments with
  | false, [PathSegment.mk id PathArguments.noArgs] => id == name
  | _, _ => false

/-- A `TypeParamBound` that is a trait bound whose path `is_ident`s the given
trait name (the test performed in the constraint-scanning loop). -/
def matchesTrait (traitName : String) (b : TypeParamBound) : Bool :=
  match b with
  | TypeParamBound.traitBound lc segs => isIdentSegs lc segs traitName
  | TypeParamBound.lifetimeBound _ => false

def multipleBoundsMsg : String :=
  "Multiple bounds to trait, can be problematic so how about no?"

def missingArgumentMsg : String := "Argument is required and must be a type"

def unsupportedMemberMsg : String :=
  "Trait contains non-method definitions which is unsupported"

def unsupportedTypeArgsMsg : String := "Unsupported type arguments"

def unsupportedTypeMsg : String := "Unsupported type"

def noSegmentPanicMsg : String := "To have at least on type path segment"

def swapRemovePanicMsg : String := "swap_remove index out of bounds"

/-- The inner loop over one constraint's bounds: each trait bound whose path
`is_ident`s the trait name performs `deref_type.replace(constraint.ident)`,
failing with the multiple-bounds error when the previous value was `Some`. -/
def checkBounds (traitName cIdent : String) (derefType : Option String) :
    List TypeParamBound → Except String (Option String)
  | [] => Except.ok derefType
  | TypeParamBound.traitBound lc segs :: rest =>
    if isIdentSegs lc segs traitName then
      match derefType with
      | some _ => Except.error multipleBoundsMsg
      | none => checkBounds traitName cIdent (some cIdent) rest
    else checkBounds traitName cIdent derefType rest
  | TypeParamBound.lifetimeBound _ :: rest => checkBounds traitName cIdent derefType rest

/-- The plain unconstrained parameter the source substitutes for a constraint:
a path with one segment, the constraint's identifier, no arguments. -/
def plainArg (id : String) : GenericArg :=
  GenericArg.type (Ty.path false [PathSegment.mk id PathArguments.noArgs])

/-- The loop over the target type's generic arguments: every
`GenericArgument::Constraint` has its bounds scanned (`checkBounds`) and is
then overwritten in place with `plainArg`; other arguments pass unchanged. -/
def resolveArgs (traitName : String) (derefType : Option String) :
    List GenericArg → Except String (Option String × List GenericArg)
  | [] => Except.ok (derefType, [])
  | GenericArg.constraint cid bs :: rest =>
    match checkBounds traitName cid derefType bs with
    | Except.error e => Except.error e
    | Except.ok d2 =>
      match resolveArgs traitName d2 rest with
      | Except.error e => Except.error e
      | Except.ok (d3, rw) => Except.ok (d3, plainArg cid :: rw)
  | a :: rest =>
    match resolveArgs traitName derefType rest with
    | Except.error e => Except.error e
    | Except.ok (d3, rw) => Except.ok (d3, a :: rw)

/-- The forwarding expressions pushed into `method_args`, one constructor per
`quote!` fragment of the source. -/
inductive MethodArg : Type where
  | derefMutSelf
  | derefSelf
  | selfInto
  | ident (name : String)
deriving DecidableEq, Repr

/-- `syn::FnArg`: a receiver (with optional reference and mutability) or a
typed argument whose pattern is quoted verbatim. -/
inductive FnArg : Type where
  | receiver (reference : Bool) (mutability : Bool)
  | typed (pat : String)
deriving DecidableEq, Repr

/-- The per-argument branch of the forwarder's loop over `sig.inputs`. -/
def forwardArg : FnArg → MethodArg
  | FnArg.receiver ref mu =>
    if ref then
      if mu then MethodArg.derefMutSelf else MethodArg.derefSelf
    else MethodArg.selfInto
  | FnArg.typed pat => MethodArg.ident pat

def buildMethodArgs (inputs : List FnArg) : List MethodArg :=
  inputs.map forwardArg

/-- A method body: either the generated forwarding block
`{ callee::methodName(callArgs,) }` or an opaque pre-existing body. -/
inductive Block : Type where
  | forward (callee : String) (methodName : String) (callArgs : List MethodArg)
  | source (code : String)
deriving DecidableEq, Repr

structure Signature where
  ident : String
  inputs : List FnArg
deriving DecidableEq, Repr

/-- `syn::TraitItemMethod`: signature, optional default body, semicolon token. -/
structure TraitItemMethod where
  sig : Signature
  default : Option Block
  semiToken : Bool
deriving DecidableEq, Repr

inductive TraitItem : Type where
  | method (m : TraitItemMethod)
  | otherItem (tag : String)
deriving DecidableEq, Repr

/-- The per-method work of the forwarder: clone the method, set its default
to the generated forwarding block, clear the semicolon. -/
def forwardedMethod (derefName : String) (m : TraitItemMethod) : TraitItemMethod :=
  { m with
    default := some (Block.forward derefName m.sig.ident (buildMethodArgs m.sig.inputs)),
    semiToken := false }

/-- The loop over `input.items`: methods are forwarded, anything else aborts
with the unsupported-member diagnostic. -/
def forwardMethods (derefName : String) : List TraitItem → Except String (List TraitItemMethod)
  | [] => Except.ok []
  | TraitItem.method m :: rest =>
    match forwardMethods derefName rest with
    | Except.error e => Except.error e
    | Except.ok ms => Except.ok (forwardedMethod derefName m :: ms)
  | TraitItem.otherItem _ :: _ => Except.error unsupportedMemberMsg

/-- A failure of one target's processing: a `compile_error!` diagnostic or a
Rust panic. -/
inductive Failure : Type where
  | compileError (msg : String)
  | panicked (msg : String)
deriving DecidableEq, Repr

/-- One emitted `impl#type_generics #trait_name for #args { #methods }`. -/
structure ImplBlock where
  typeGenerics : Option (List GenericArg)
  traitName : String
  target : Ty
  methods : List TraitItemMethod

/-- `segments.last_mut().arguments = a`: overwrite the last segment's
arguments, leaving an empty list unchanged (the source would have panicked
on the empty case before reaching this point). -/
def setLastArguments (segs : List PathSegment) (a : PathArguments) : List PathSegment :=
  match segs.getLast? with
  | none => segs
  | some (PathSegment.mk id _) => segs.dropLast ++ [PathSegment.mk id a]

/-- Processing of one target type: the body of the `for mut args in args`
loop of the source, producing one impl block or aborting. -/
def processTarget (traitName : String) (items : List TraitItem) (target : Ty) :
    Except Failure ImplBlock :=
  match target with
  | Ty.path lc segs =>
    match segs.getLast? with
    | none => Except.error (Failure.panicked noSegmentPanicMsg)
    | some (PathSegment.mk _ (PathArguments.angle gargs)) =>
      match resolveArgs traitName none gargs with
      | Except.error e => Except.error (Failure.compileError e)
      | Except.ok (derefType, rewritten) =>
        match forwardMethods (derefType.getD traitName) items with
        | Except.error e => Except.error (Failure.compileError e)
        | Except.ok ms =>
          Except.ok {
            typeGenerics := some gargs,
            traitName := traitName,
            target := Ty.path lc (setLastArguments segs (PathArguments.angle rewritten)),
            methods := ms }
    | some (PathSegment.mk _ PathArguments.noArgs) =>
      match forwardMethods traitName items with
      | Except.error e => Except.error (Failure.compileError e)
      | Except.ok ms =>
        Except.ok {
          typeGenerics := none,
          traitName := traitName,
          target := target,
          methods := ms }
    | some (PathSegment.mk _ PathArguments.parenthesized) =>
      Except.error (Failure.compileError unsupportedTypeArgsMsg)
  | _ => Except.error (Failure.compileError unsupportedTypeMsg)

/-- `syn::Attribute`: its path (for the `is_ident("auto_trait")` test) and the
result of `syn::parse2` on its token tree (`none` = parse failure). -/
structure Attribute where
  pathLeadingColon : Bool
  pathSegments : List PathSegment
  parsedTokens : Option Ty

structure ItemTrait where
  attrs : List Attribute
  ident : String
  items : List TraitItem

/-- The scan `for idx in 0..input.attrs.len()`: every attribute whose path is
`auto_trait` has its tokens parsed as a type (one `Type::Paren` layer
unwrapped) and its index recorded for later removal. -/
def collectSecondary : List Attribute → Nat → Except String (List Ty × List Nat)
  | [], _ => Except.ok ([], [])
  | a :: rest, idx =>
    if isIdentSegs a.pathLeadingColon a.pathSegments "auto_trait" then
      match a.parsedTokens with
      | none => Except.error missingArgumentMsg
      | some t =>
        let t2 := match t with
          | Ty.paren e => e
          | t2 => t2
        match collectSecondary rest (idx + 1) with
        | Except.error e => Except.error e
        | Except.ok (ts, idxs) => Except.ok (t2 :: ts, idx :: idxs)
    else collectSecondary rest (idx + 1)

/-- `Vec::swap_remove`: replace the element at `i` with the last element and
pop; `none` models the out-of-bounds panic. -/
def swapRemove {α : Type} (xs : List α) (i : Nat) : Option (List α) :=
  match xs.getLast? with
  | none => none
  | some last =>
    if i < xs.length then some ((xs.set i last).dropLast) else none

/-- The removal loop `for idx in attrs_to_remove { input.attrs.swap_remove(idx) }`. -/
def removeAttrs : List Attribute → List Nat → Option (List Attribute)
  | attrs, [] => some attrs
  | attrs, i :: rest =>
    match swapRemove attrs i with
    | none => none
    | some attrs2 => removeAttrs attrs2 rest

/-- The emitted token stream: the (attribute-stripped) declaration followed by
the impl blocks. -/
structure Output where
  decl : ItemTrait
  impls : List ImplBlock

/-- The result of the whole attribute macro. -/
inductive MacroResult : Type where
  | ok (out : Output)
  | compileError (msg : String)
  | panicked (msg : String)

/-- The `for mut args in args.drain(..)` loop: each target yields one impl
block, the first failure aborts the whole invocation. -/
def processAll (traitName : String) (items : List TraitItem) :
    List Ty → Except Failure (List ImplBlock)
  | [] => Except.ok []
  | t :: rest =>
    match processTarget traitName items t with
    | Except.error e => Except.error e
    | Except.ok impl =>
      match processAll traitName items rest with
      | Except.error e => Except.error e
      | Except.ok impls => Except.ok (impl :: impls)

/-- The whole `auto_trait` attribute macro. `argTokens` is the parse result of
the primary argument token stream (`none` = not parseable as a type). -/
def autoTrait (argTokens : Option Ty) (input : ItemTrait) : MacroResult :=
  match argTokens with
  | none => MacroResult.compileError missingArgumentMsg
  | some primary =>
    match collectSecondary input.attrs 0 with
    | Except.error e => MacroResult.compileError e
    | Except.ok (secondaries, idxs) =>
      match removeAttrs input.attrs idxs with
      | none => MacroResult.panicked swapRemovePanicMsg
      | some attrs2 =>
        let input2 : ItemTrait := { input with attrs := attrs2 }
        match processAll input2.ident input2.items (primary :: secondaries) with
        | Except.error (Failure.compileError m) => MacroResult.compileError m
        | Except.error (Failure.panicked m) => MacroResult.panicked m
        | Except.ok impls => MacroResult.ok { decl := input2, impls := impls }

/-! ## Derived notions used in the statements -/

/-- Whether a trait item is a method. -/
def isMethodItem : TraitItem → Bool
  | TraitItem.method _ => true
  | TraitItem.otherItem _ => false

/-- Whether a generic argument is a constrained parameter. -/
def isConstraintArg : GenericArg → Bool
  | GenericArg.constraint _ _ => true
  | _ => false

/-- The substitution the resolver applies to one generic argument: a
constraint becomes the plain unconstrained parameter, anything else is
left alone. -/
def rewriteArg : GenericArg → GenericArg
  | GenericArg.constraint id _ => plainArg id
  | a => a

/-- Number of bounds in a list that name the trait being processed. -/
def countMatches (tn : String) : List TypeParamBound → Nat
  | [] => 0
  | b :: rest => (if matchesTrait tn b then 1 else 0) + countMatches tn rest

/-- Number of self-referential trait bounds across a generic-argument list. -/
def totalMatches (tn : String) : List GenericArg → Nat
  | [] => 0
  | GenericArg.constraint _ bs :: rest => countMatches tn bs + totalMatches tn rest
  | _ :: rest => totalMatches tn rest

/-- A path type consisting of a single plain identifier segment. -/
def tyIdent (s : String) : Ty := Ty.path false [PathSegment.mk s PathArguments.noArgs]

/-- A trait bound that is a single plain identifier. -/
def tbIdent (s : String) : TypeParamBound :=
  TypeParamBound.traitBound false [PathSegment.mk s PathArguments.noArgs]

/-- `Box<a>` for a single generic argument `a`. -/
def boxTy (a : GenericArg) : Ty :=
  Ty.path false [PathSegment.mk "Box" (PathArguments.angle [a])]

/-- A secondary `auto_trait` annotation carrying target type `t` (its token
tree parses as the parenthesized type, as attribute tokens include the
delimiting parentheses). -/
def atAttr (t : Ty) : Attribute :=
  { pathLeadingColon := false,
    pathSegments := [PathSegment.mk "auto_trait" PathArguments.noArgs],
    parsedTokens := some (Ty.paren t) }

/-! ## Helper lemmas -/

theorem setLastArguments_concat (pre : List PathSegment) (nm : String)
    (x a : PathArguments) :
    setLastArguments (pre ++ [PathSegment.mk nm x]) a = pre ++ [PathSegment.mk nm a] := by
  unfold setLastArguments
  rw [List.getLast?_concat]
  simp

theorem countMatches_append (tn : String) (xs ys : List TypeParamBound) :
    countMatches tn (xs ++ ys) = countMatches tn xs + countMatches tn ys := by
  induction xs with
  | nil => simp [countMatches]
  | cons b rest ih => simp [countMatches, ih]; omega

theorem totalMatches_append (tn : String) (xs ys : List GenericArg) :
    totalMatches tn (xs ++ ys) = totalMatches tn xs + totalMatches tn ys := by
  induction xs with
  | nil => simp [totalMatches]
  | cons a rest ih =>
    cases a with
    | constraint id bs => simp [totalMatches, ih]; omega
    | type t => simp [totalMatches, ih]
    | otherArg t => simp [totalMatches, ih]

theorem countMatches_pos_of_mem (tn : String) (bs : List TypeParamBound)
    (b : TypeParamBound) (hb : b ∈ bs) (hm : matchesTrait tn b = true) :
    0 < countMatches tn bs := by
  induction bs with
  | nil => cases hb
  | cons x rest ih =>
    cases hb with
    | head => simp [countMatches, hm]
    | tail _ h => have := ih h; simp [countMatches]; omega

theorem forwardMethods_get (d : String) (items : List TraitItem) :
    ∀ (ms : List TraitItemMethod), forwardMethods d items = Except.ok ms →
    ∀ (i : Nat) (m : TraitItemMethod), items.get? i = some (TraitItem.method m) →
    ms.get? i = some (forwardedMethod d m) := by
  induction items with
  | nil => intro ms _ i m hi; simp at hi
  | cons x rest ih =>
    intro ms h i m hi
    cases x with
    | method m0 =>
      cases hrest : forwardMethods d rest with
      | error e =>
        simp only [forwardMethods, hrest] at h
        exact Except.noConfusion h
      | ok ms' =>
        simp only [forwardMethods, hrest] at h
        cases h
        cases i with
        | zero =>
          simp only [List.get?] at hi
          cases hi
          rfl
        | succ j =>
          simp only [List.get?] at hi ⊢
          exact ih ms' hrest j m hi
    | otherItem t =>
      simp only [forwardMethods] at h
      exact Except.noConfusion h

theorem forwardMethods_callee (d : String) (items : List TraitItem) :
    ∀ (ms : List TraitItemMethod), forwardMethods d items = Except.ok ms →
    ∀ m' ∈ ms, ∃ n2 a2, m'.default = some (Block.forward d n2 a2) := by
  induction items with
  | nil =>
    intro ms h m' hm
    simp only [forwardMethods] at h
    cases h
    cases hm
  | cons x rest ih =>
    intro ms h m' hm
    cases x with
    | method m0 =>
      cases hrest : forwardMethods d rest with
      | error e =>
        simp only [forwardMethods, hrest] at h
        exact Except.noConfusion h
      | ok ms' =>
        simp only [forwardMethods, hrest] at h
        cases h
        cases hm with
        | head => exact ⟨m0.sig.ident, buildMethodArgs m0.sig.inputs, rfl⟩
        | tail _ htail => exact ih ms' hrest m' htail
    | otherItem t =>
      simp only [forwardMethods] at h
      exact Except.noConfusion h

theorem forwardMethods_error_of_nonmethod (d : String) (items : List TraitItem)
    (hbad : ∃ x ∈ items, isMethodItem x = false) :
    forwardMethods d items = Except.error unsupportedMemberMsg := by
  induction items with
  | nil => obtain ⟨x, hx, _⟩ := hbad; cases hx
  | cons y rest ih =>
    obtain ⟨x, hx, hxm⟩ := hbad
    cases y with
    | method m0 =>
      cases hx with
      | head => simp [isMethodItem] at hxm
      | tail _ htail =>
        have := ih ⟨x, htail, hxm⟩
        simp only [forwardMethods, this]
    | otherItem t => simp only [forwardMethods]

theorem checkBounds_zero (tn cid : String) (bs : List TypeParamBound) :
    ∀ dt, countMatches tn bs = 0 → checkBounds tn cid dt bs = Except.ok dt := by
  induction bs with
  | nil => intro dt _; rfl
  | cons b rest ih =>
    intro dt hc
    cases b with
    | traitBound lc segs =>
      simp only [countMatches, matchesTrait] at hc
      by_cases hm : isIdentSegs lc segs tn = true
      · simp [hm] at hc
      · have hm' : isIdentSegs lc segs tn = false := by
          cases h : isIdentSegs lc segs tn
          · rfl
          · exact absurd h hm
        simp only [checkBounds, hm']
        simp only [Bool.false_eq_true, if_false]
        apply ih
        simp [hm'] at hc
        omega
    | lifetimeBound l =>
      simp only [countMatches, matchesTrait] at hc
      simp only [checkBounds]
      apply ih
      omega

theorem checkBounds_pos_some (tn cid d : String) (bs : List TypeParamBound) :
    0 < countMatches tn bs → checkBounds tn cid (some d) bs = Except.error multipleBoundsMsg := by
  induction bs with
  | nil => intro hc; simp [countMatches] at hc
  | cons b rest ih =>
    intro hc
    cases b with
    | traitBound lc segs =>
      by_cases hm : isIdentSegs lc segs tn = true
      · simp only [checkBounds, hm, if_true]
      · have hm' : isIdentSegs lc segs tn = false := by
          cases h : isIdentSegs lc segs tn
          · rfl
          · exact absurd h hm
        simp only [checkBounds, hm', Bool.false_eq_true, if_false]
        apply ih
        simp only [countMatches, matchesTrait, hm'] at hc
        simpa using hc
    | lifetimeBound l =>
      simp only [checkBounds]
      apply ih
      simp only [countMatches, matchesTrait] at hc
      simpa using hc

theorem checkBounds_one (tn cid : String) (bs : List TypeParamBound) :
    countMatches tn bs = 1 → checkBounds tn cid none bs = Except.ok (some cid) := by
  induction bs with
  | nil => intro hc; simp [countMatches] at hc
  | cons b rest ih =>
    intro hc
    cases b with
    | traitBound lc segs =>
      by_cases hm : isIdentSegs lc segs tn = true
      · simp only [checkBounds, hm, if_true]
        apply checkBounds_zero
        simp only [countMatches, matchesTrait, hm, if_true] at hc
        omega
      · have hm' : isIdentSegs lc segs tn = false := by
          cases h : isIdentSegs lc segs tn
          · rfl
          · exact absurd h hm
        simp only [checkBounds, hm', Bool.false_eq_true, if_false]
        apply ih
        simp only [countMatches, matchesTrait, hm'] at hc
        simpa using hc
    | lifetimeBound l =>
      simp only [checkBounds]
      apply ih
      simp only [countMatches, matchesTrait] at hc
      simpa using hc

theorem checkBounds_two (tn cid : String) (bs : List TypeParamBound) :
    ∀ dt, 2 ≤ countMatches tn bs → checkBounds tn cid dt bs = Except.error multipleBoundsMsg := by
  induction bs with
  | nil => intro dt hc; simp [countMatches] at hc
  | cons b rest ih =>
    intro dt hc
    cases b with
    | traitBound lc segs =>
      by_cases hm : isIdentSegs lc segs tn = true
      · cases dt with
        | some d => simp only [checkBounds, hm, if_true]
        | none =>
          simp only [checkBounds, hm, if_true]
          apply checkBounds_pos_some
          simp only [countMatches, matchesTrait, hm, if_true] at hc
          omega
      · have hm' : isIdentSegs lc segs tn = false := by
          cases h : isIdentSegs lc segs tn
          · rfl
          · exact absurd h hm
        simp only [checkBounds, hm', Bool.false_eq_true, if_false]
        apply ih
        simp only [countMatches, matchesTrait, hm'] at hc
        simpa using hc
    | lifetimeBound l =>
      simp only [checkBounds]
      apply ih
      simp only [countMatches, matchesTrait] at hc
      simpa using hc

theorem resolveArgs_rw (tn : String) (args : List GenericArg) :
    ∀ dt d2 rw, resolveArgs tn dt args = Except.ok (d2, rw) → rw = args.map rewriteArg := by
  induction args with
  | nil =>
    intro dt d2 rw h
    simp only [resolveArgs] at h
    cases h
    rfl
  | cons a rest ih =>
    intro dt d2 rw h
    cases a with
    | constraint cid bs =>
      cases hcb : checkBounds tn cid dt bs with
      | error e =>
        simp only [resolveArgs, hcb] at h
        exact Except.noConfusion h
      | ok dmid =>
        simp only [resolveArgs, hcb] at h
        cases hra : resolveArgs tn dmid rest with
        | error e => rw [hra] at h; exact Except.noConfusion h
        | ok pr =>
          obtain ⟨d3, rw'⟩ := pr
          rw [hra] at h
          cases h
          simp only [List.map, rewriteArg]
          exact congrArg _ (ih _ _ _ hra)
    | type t =>
      cases hra : resolveArgs tn dt rest with
      | error e =>
        simp only [resolveArgs, hra] at h
        exact Except.noConfusion h
      | ok pr =>
        obtain ⟨d3, rw'⟩ := pr
        simp only [resolveArgs, hra] at h
        cases h
        simp only [List.map, rewriteArg]
        exact congrArg _ (ih _ _ _ hra)
    | otherArg tg =>
      cases hra : resolveArgs tn dt rest with
      | error e =>
        simp only [resolveArgs, hra] at h
        exact Except.noConfusion h
      | ok pr =>
        obtain ⟨d3, rw'⟩ := pr
        simp only [resolveArgs, hra] at h
        cases h
        simp only [List.map, rewriteArg]
        exact congrArg _ (ih _ _ _ hra)

theorem resolveArgs_zero (tn : String) (args : List GenericArg) :
    ∀ dt, totalMatches tn args = 0 →
    resolveArgs tn dt args = Except.ok (dt, args.map rewriteArg) := by
  induction args with
  | nil => intro dt _; rfl
  | cons a rest ih =>
    intro dt hz
    cases a with
    | constraint cid bs =>
      simp only [totalMatches] at hz
      have hbs : countMatches tn bs = 0 := by omega
      have hrest : totalMatches tn rest = 0 := by omega
      simp only [resolveArgs, checkBounds_zero tn cid bs dt hbs, ih dt hrest,
        List.map, rewriteArg]
    | type t =>
      simp only [totalMatches] at hz
      simp only [resolveArgs, ih dt hz, List.map, rewriteArg]
    | otherArg tg =>
      simp only [totalMatches] at hz
      simp only [resolveArgs, ih dt hz, List.map, rewriteArg]

theorem resolveArgs_pos_some (tn d : String) (args : List GenericArg) :
    0 < totalMatches tn args →
    resolveArgs tn (some d) args = Except.error multipleBoundsMsg := by
  induction args with
  | nil => intro hc; simp [totalMatches] at hc
  | cons a rest ih =>
    intro hc
    cases a with
    | constraint cid bs =>
      rcases Nat.eq_zero_or_pos (countMatches tn bs) with hz | hp
      · simp only [totalMatches, hz] at hc
        simp only [resolveArgs, checkBounds_zero tn cid bs (some d) hz]
        rw [ih (by omega)]
      · simp only [resolveArgs, checkBounds_pos_some tn cid d bs hp]
    | type t =>
      simp only [totalMatches] at hc
      simp only [resolveArgs]
      rw [ih hc]
    | otherArg tg =>
      simp only [totalMatches] at hc
      simp only [resolveArgs]
      rw [ih hc]

theorem resolveArgs_two (tn : String) (args : List GenericArg) :
    2 ≤ totalMatches tn args →
    resolveArgs tn none args = Except.error multipleBoundsMsg := by
  induction args with
  | nil => intro hc; simp [totalMatches] at hc
  | cons a rest ih =>
    intro hc
    cases a with
    | constraint cid bs =>
      rcases Nat.lt_or_ge (countMatches tn bs) 2 with hlt | hge
      · rcases Nat.eq_zero_or_pos (countMatches tn bs) with hz | hp
        · simp only [totalMatches, hz] at hc
          simp only [resolveArgs, checkBounds_zero tn cid bs none hz]
          rw [ih (by omega)]
        · have hone : countMatches tn bs = 1 := by omega
          simp only [totalMatches, hone] at hc
          simp only [resolveArgs, checkBounds_one tn cid bs hone]
          rw [resolveArgs_pos_some tn cid rest (by omega)]
      · simp only [resolveArgs, checkBounds_two tn cid bs none hge]
    | type t =>
      simp only [totalMatches] at hc
      simp only [resolveArgs]
      rw [ih hc]
    | otherArg tg =>
      simp only [totalMatches] at hc
      simp only [resolveArgs]
      rw [ih hc]

/-- Whether an attribute's path is the `auto_trait` identifier. -/
def isAutoTraitAttr (a : Attribute) : Bool :=
  isIdentSegs a.pathLeadingColon a.pathSegments "auto_trait"

theorem collectSecondary_nomatch (attrs : List Attribute) :
    ∀ i, (∀ a ∈ attrs, isAutoTraitAttr a = false) →
    collectSecondary attrs i = Except.ok ([], []) := by
  induction attrs with
  | nil => intro i _; rfl
  | cons a rest ih =>
    intro i hno
    have ha : isAutoTraitAttr a = false := hno a (List.mem_cons_self a rest)
    simp only [collectSecondary, isAutoTraitAttr] at ha ⊢
    rw [ha]
    simp only [Bool.false_eq_true, if_false]
    exact ih (i + 1) (fun x hx => hno x (List.mem_cons_of_mem a hx))

theorem collectSecondary_append_nomatch (pre : List Attribute) :
    ∀ (rest : List Attribute) (i : Nat), (∀ a ∈ pre, isAutoTraitAttr a = false) →
    collectSecondary (pre ++ rest) i = collectSecondary rest (i + pre.length) := by
  induction pre with
  | nil => intro rest i _; simp
  | cons a pre2 ih =>
    intro rest i hno
    have ha : isAutoTraitAttr a = false := hno a (List.mem_cons_self a pre2)
    simp only [List.cons_append, collectSecondary, isAutoTraitAttr] at ha ⊢
    rw [ha]
    simp only [Bool.false_eq_true, if_false]
    show collectSecondary (pre2 ++ rest) (i + 1) = collectSecondary rest (i + (a :: pre2).length)
    rw [ih rest (i + 1) (fun x hx => hno x (List.mem_cons_of_mem a hx))]
    congr 1
    simp [List.length_cons]
    omega

theorem processAll_mem (tn : String) (items : List TraitItem) :
    ∀ (ts : List Ty) (impls : List ImplBlock),
    processAll tn items ts = Except.ok impls →
    ∀ impl ∈ impls, ∃ t ∈ ts, processTarget tn items t = Except.ok impl := by
  intro ts
  induction ts with
  | nil =>
    intro impls h impl hi
    simp only [processAll] at h
    cases h
    cases hi
  | cons t rest ih =>
    intro impls h impl hi
    cases hpt : processTarget tn items t with
    | error e =>
      simp only [processAll, hpt] at h
      exact Except.noConfusion h
    | ok impl0 =>
      simp only [processAll, hpt] at h
      cases hpa : processAll tn items rest with
      | error e => rw [hpa] at h; exact Except.noConfusion h
      | ok impls' =>
        rw [hpa] at h
        cases h
        cases hi with
        | head => exact ⟨t, List.mem_cons_self t rest, hpt⟩
        | tail _ htail =>
          obtain ⟨t2, ht2, hpt2⟩ := ih impls' hpa impl htail
          exact ⟨t2, List.mem_cons_of_mem t ht2, hpt2⟩

theorem processAll_head (tn : String) (items : List TraitItem) (t : Ty)
    (rest : List Ty) (impls : List ImplBlock)
    (h : processAll tn items (t :: rest) = Except.ok impls) :
    ∃ impl, processTarget tn items t = Except.ok impl := by
  cases hpt : processTarget tn items t with
  | error e =>
    simp only [processAll, hpt] at h
    exact Except.noConfusion h
  | ok impl0 => exact ⟨impl0, rfl⟩

theorem processTarget_ok_fwd (tn : String) (items : List TraitItem) (t : Ty)
    (impl : ImplBlock) (h : processTarget tn items t = Except.ok impl) :
    ∃ d, forwardMethods d items = Except.ok impl.methods := by
  cases t with
  | paren e =>
    simp only [processTarget] at h
    exact Except.noConfusion h
  | other tg =>
    simp only [processTarget] at h
    exact Except.noConfusion h
  | path lc segs =>
    cases hl : segs.getLast? with
    | none =>
      simp only [processTarget, hl] at h
      exact Except.noConfusion h
    | some seg =>
      cases seg with
      | mk nm pa =>
        cases pa with
        | noArgs =>
          simp only [processTarget, hl] at h
          cases hf : forwardMethods tn items with
          | error e => rw [hf] at h; exact Except.noConfusion h
          | ok ms =>
            rw [hf] at h
            cases h
            exact ⟨tn, hf⟩
        | parenthesized =>
          simp only [processTarget, hl] at h
          exact Except.noConfusion h
        | angle gargs =>
          simp only [processTarget, hl] at h
          cases hra : resolveArgs tn none gargs with
          | error e => rw [hra] at h; exact Except.noConfusion h
          | ok pr =>
            obtain ⟨dty, rw2⟩ := pr
            rw [hra] at h
            dsimp only at h
            cases hf : forwardMethods (dty.getD tn) items with
            | error e => rw [hf] at h; exact Except.noConfusion h
            | ok ms =>
              rw [hf] at h
              cases h
              exact ⟨dty.getD tn, hf⟩

theorem autoTrait_ok_inv (a : Option Ty) (input : ItemTrait) (out : Output)
    (h : autoTrait a input = MacroResult.ok out) :
    ∃ primary secondaries idxs attrs2,
      a = some primary ∧
      collectSecondary input.attrs 0 = Except.ok (secondaries, idxs) ∧
      removeAttrs input.attrs idxs = some attrs2 ∧
      out.decl = { input with attrs := attrs2 } ∧
      processAll input.ident input.items (primary :: secondaries) = Except.ok out.impls := by
  cases a with
  | none =>
    simp only [autoTrait] at h
    exact MacroResult.noConfusion h
  | some primary =>
    cases hcs : collectSecondary input.attrs 0 with
    | error e =>
      simp only [autoTrait, hcs] at h
      exact MacroResult.noConfusion h
    | ok pr =>
      obtain ⟨secondaries, idxs⟩ := pr
      simp only [autoTrait, hcs] at h
      cases hrm : removeAttrs input.attrs idxs with
      | none => rw [hrm] at h; exact MacroResult.noConfusion h
      | some attrs2 =>
        rw [hrm] at h
        cases hpa : processAll input.ident input.items (primary :: secondaries) with
        | error f =>
          cases f with
          | compileError m => rw [hpa] at h; exact MacroResult.noConfusion h
          | panicked m => rw [hpa] at h; exact MacroResult.noConfusion h
        | ok impls =>
          rw [hpa] at h
          cases h
          exact ⟨primary, secondaries, idxs, attrs2, rfl, rfl, hrm, rfl, hpa⟩

theorem set_at_append_length {α : Type} (pre : List α) (x v : α) (rest : List α) :
    (pre ++ x :: rest).set pre.length v = pre ++ v :: rest := by
  induction pre with
  | nil => rfl
  | cons q pre2 ih =>
    simp only [List.cons_append, List.length_cons, List.set]
    show q :: ((pre2 ++ x :: rest).set pre2.length v) = q :: (pre2 ++ v :: rest)
    rw [ih]

theorem swapRemove_mid {α : Type} (pre post : List α) (x : α) :
    swapRemove (pre ++ x :: post) pre.length =
      some ((pre ++ ((x :: post).getLast (List.cons_ne_nil x post)) :: post).dropLast) := by
  unfold swapRemove
  rw [List.getLast?_append_cons, List.getLast?_eq_getLast (x :: post) (List.cons_ne_nil x post)]
  dsimp only
  have hlt : pre.length < (pre ++ x :: post).length := by simp
  rw [if_pos hlt, set_at_append_length]

theorem swapRemove_mid_indep {α : Type} (pre post : List α) (x y : α) :
    swapRemove (pre ++ x :: post) pre.length = swapRemove (pre ++ y :: post) pre.length := by
  cases post with
  | nil =>
    rw [swapRemove_mid, swapRemove_mid]
    simp [List.dropLast_concat]
  | cons q post2 =>
    rw [swapRemove_mid, swapRemove_mid]
    rw [List.getLast_cons (List.cons_ne_nil q post2), List.getLast_cons (List.cons_ne_nil q post2)]

/-! ## Claim theorems -/

/-- C1: in every generated method body, the receiver kind of the method
determines the forwarding expression passed first — a by-reference receiver
without a mutability marker yields the read-only dereference projection
`core::ops::Deref::deref(self)`, a by-reference receiver with a mutability
marker yields the mutable projection `core::ops::DerefMut::deref_mut(self)`,
a by-value receiver yields the value conversion `self.into()`, and a method
with no receiver gets no receiver argument — followed in all cases by the
method's remaining declared parameters, by identifier (pattern), in their
original declared order, as the arguments of a call to the resolved
forward-to name's associated function of the same name as the method. -/
theorem forwarding_expression_matches_receiver_kind
    (derefName : String) (items : List TraitItem) (ms : List TraitItemMethod)
    (i : Nat) (m : TraitItemMethod) (params : List String)
    (hok : forwardMethods derefName items = Except.ok ms)
    (hi : items.get? i = some (TraitItem.method m)) :
    (m.sig.inputs = FnArg.receiver true false :: params.map FnArg.typed →
      ms.get? i = some { m with
        default := some (Block.forward derefName m.sig.ident
          (MethodArg.derefSelf :: params.map MethodArg.ident)),
        semiToken := false })
  ∧ (m.sig.inputs = FnArg.receiver true true :: params.map FnArg.typed →
      ms.get? i = some { m with
        default := some (Block.forward derefName m.sig.ident
          (MethodArg.derefMutSelf :: params.map MethodArg.ident)),
        semiToken := false })
  ∧ (∀ mu : Bool, m.sig.inputs = FnArg.receiver false mu :: params.map FnArg.typed →
      ms.get? i = some { m with
        default := some (Block.forward derefName m.sig.ident
          (MethodArg.selfInto :: params.map MethodArg.ident)),
        semiToken := false })
  ∧ (m.sig.inputs = params.map FnArg.typed →
      ms.get? i = some { m with
        default := some (Block.forward derefName m.sig.ident
          (params.map MethodArg.ident)),
        semiToken := false }) := by
  have hget := forwardMethods_get derefName items ms hok i m hi
  refine ⟨?_, ?_, ?_, ?_⟩
  · intro hins
    rw [hget]
    simp [forwardedMethod, buildMethodArgs, hins, forwardArg, List.map_map, Function.comp]
  · intro hins
    rw [hget]
    simp [forwardedMethod, buildMethodArgs, hins, forwardArg, List.map_map, Function.comp]
  · intro mu hins
    rw [hget]
    simp [forwardedMethod, buildMethodArgs, hins, forwardArg, List.map_map, Function.comp]
  · intro hins
    rw [hget]
    simp [forwardedMethod, buildMethodArgs, hins, forwardArg, List.map_map, Function.comp]

/-- A method `fn m(&self, x: ..)` without a body, used as concrete witness input. -/
def w1m : TraitItemMethod :=
  { sig := { ident := "m", inputs := [FnArg.receiver true false, FnArg.typed "x"] },
    default := none, semiToken := true }

/-- Witness for C1 at a concrete method with a `&self` receiver and one
further parameter. -/
theorem forwarding_expression_matches_receiver_kind_witness :
    ([forwardedMethod "F" w1m].get? 0 : Option TraitItemMethod) =
      some { w1m with
        default := some (Block.forward "F" "m"
          (MethodArg.derefSelf :: ["x"].map MethodArg.ident)),
        semiToken := false } :=
  (forwarding_expression_matches_receiver_kind "F" [TraitItem.method w1m]
    [forwardedMethod "F" w1m] 0 w1m ["x"] rfl rfl).1 rfl

/-- A trait declaration carrying two secondary `auto_trait` annotations (the
primary invocation's own attribute is consumed by the compiler and is not in
the attribute list). -/
def twoAttrInput : ItemTrait :=
  { attrs := [atAttr (tyIdent "Wrapper"), atAttr (tyIdent "Wrapper2")],
    ident := "Lolka2",
    items := [] }

/-- C6: refuted by the code — with two matched secondary annotations the
removal loop stores ascending indices `[0, 1]` and removes them with
`swap_remove`; after `swap_remove(0)` the list has length 1, so
`swap_remove(1)` is out of bounds and the macro panics instead of removing
every matched annotation exactly once. The first two conjuncts record that
both attributes are indeed matched (`auto_trait`-pathed) annotations. -/
theorem secondary_annotation_removal_panics :
    isAutoTraitAttr (atAttr (tyIdent "Wrapper")) = true
  ∧ isAutoTraitAttr (atAttr (tyIdent "Wrapper2")) = true
  ∧ autoTrait (some (tyIdent "W")) twoAttrInput
      = MacroResult.panicked swapRemovePanicMsg := by
  refine ⟨rfl, rfl, rfl⟩

/-- C5: a target type whose generic-argument list contains two constrained
arguments each carrying a bound naming the trait being processed makes the
whole invocation fail with the ambiguous-forward-target diagnostic
(`multipleBoundsMsg`), emitting no generated output (the result is a
`compileError`, which carries no declaration and no impl blocks). Stated
for any declaration whose other attributes are not `auto_trait`
annotations, any surrounding path segments and any other generic
arguments. -/
theorem ambiguous_forward_target_rejected
    (input : ItemTrait) (lc : Bool) (pre : List PathSegment) (nm : String)
    (l1 l2 l3 : List GenericArg) (id1 id2 : String)
    (bs1 bs2 : List TypeParamBound)
    (hattrs : ∀ a ∈ input.attrs, isAutoTraitAttr a = false)
    (hb1 : ∃ b ∈ bs1, matchesTrait input.ident b = true)
    (hb2 : ∃ b ∈ bs2, matchesTrait input.ident b = true) :
    autoTrait (some (Ty.path lc (pre ++ [PathSegment.mk nm (PathArguments.angle
        (l1 ++ GenericArg.constraint id1 bs1 ::
          (l2 ++ GenericArg.constraint id2 bs2 :: l3)))]))) input
      = MacroResult.compileError multipleBoundsMsg := by
  obtain ⟨b1, hb1m, hb1t⟩ := hb1
  obtain ⟨b2, hb2m, hb2t⟩ := hb2
  have hc1 := countMatches_pos_of_mem input.ident bs1 b1 hb1m hb1t
  have hc2 := countMatches_pos_of_mem input.ident bs2 b2 hb2m hb2t
  have htot : 2 ≤ totalMatches input.ident
      (l1 ++ GenericArg.constraint id1 bs1 ::
        (l2 ++ GenericArg.constraint id2 bs2 :: l3)) := by
    rw [totalMatches_append]
    simp only [totalMatches]
    rw [totalMatches_append]
    simp only [totalMatches]
    omega
  have hra := resolveArgs_two input.ident _ htot
  simp only [autoTrait, collectSecondary_nomatch input.attrs 0 hattrs, removeAttrs]
  simp only [processAll, processTarget, List.getLast?_concat, hra]

/-- A trait declaration named `Tr` with no attributes and no members. -/
def bareTr : ItemTrait := { attrs := [], ident := "Tr", items := [] }

/-- Witness for C5: the concrete target `P<T: Tr, U: Tr>` under trait `Tr`. -/
theorem ambiguous_forward_target_rejected_witness :
    autoTrait (some (Ty.path false [PathSegment.mk "P" (PathArguments.angle
        [GenericArg.constraint "T" [tbIdent "Tr"],
         GenericArg.constraint "U" [tbIdent "Tr"]])])) bareTr
      = MacroResult.compileError multipleBoundsMsg :=
  ambiguous_forward_target_rejected bareTr false [] "P" [] [] [] "T" "U"
    [tbIdent "Tr"] [tbIdent "Tr"]
    (by intro a ha; cases ha)
    ⟨tbIdent "Tr", List.mem_singleton.mpr rfl, rfl⟩
    ⟨tbIdent "Tr", List.mem_singleton.mpr rfl, rfl⟩

/-- C10: a target type with a single constrained generic argument whose bound
list names the trait being processed twice (for example `Box<T: Tr + Tr>`)
fails with the same ambiguous-forward-target diagnostic as the
multi-argument case: `deref_type.replace` runs once per matching bound, and
the second match already finds `Some`. -/
theorem double_bound_single_argument_rejected
    (input : ItemTrait) (lc : Bool) (pre : List PathSegment) (nm : String)
    (l1 l3 : List GenericArg) (id1 : String)
    (bsA bsB bsC : List TypeParamBound) (b1 b2 : TypeParamBound)
    (hattrs : ∀ a ∈ input.attrs, isAutoTraitAttr a = false)
    (hm1 : matchesTrait input.ident b1 = true)
    (hm2 : matchesTrait input.ident b2 = true) :
    autoTrait (some (Ty.path lc (pre ++ [PathSegment.mk nm (PathArguments.angle
        (l1 ++ GenericArg.constraint id1 (bsA ++ b1 :: (bsB ++ b2 :: bsC)) :: l3))])))
      input = MacroResult.compileError multipleBoundsMsg := by
  have hcb : 2 ≤ countMatches input.ident (bsA ++ b1 :: (bsB ++ b2 :: bsC)) := by
    rw [countMatches_append]
    simp only [countMatches, hm1, if_true]
    rw [countMatches_append]
    simp only [countMatches, hm2, if_true]
    omega
  have htot : 2 ≤ totalMatches input.ident
      (l1 ++ GenericArg.constraint id1 (bsA ++ b1 :: (bsB ++ b2 :: bsC)) :: l3) := by
    rw [totalMatches_append]
    simp only [totalMatches]
    omega
  have hra := resolveArgs_two input.ident _ htot
  simp only [autoTrait, collectSecondary_nomatch input.attrs 0 hattrs, removeAttrs]
  simp only [processAll, processTarget, List.getLast?_concat, hra]

/-- Witness for C10: the concrete target `Box<T: Tr + Tr>` under trait `Tr`. -/
theorem double_bound_single_argument_rejected_witness :
    autoTrait (some (Ty.path false [PathSegment.mk "Box" (PathArguments.angle
        [GenericArg.constraint "T" [tbIdent "Tr", tbIdent "Tr"]])])) bareTr
      = MacroResult.compileError multipleBoundsMsg :=
  double_bound_single_argument_rejected bareTr false [] "Box" [] [] "T"
    [] [] [] (tbIdent "Tr") (tbIdent "Tr")
    (by intro a ha; cases ha) rfl rfl

/-- C7: a trait declaration containing any member that is not a method makes
processing fail with the unsupported-member diagnostic for the entire
declaration — stated for any well-shaped (plain path) target — and, for
every primary target whatsoever, the invocation never produces output (no
implementation block, no partial emission). -/
theorem nonmethod_member_rejected
    (input : ItemTrait) (lc : Bool) (pre : List PathSegment) (nm : String)
    (hattrs : ∀ a ∈ input.attrs, isAutoTraitAttr a = false)
    (hbad : ∃ x ∈ input.items, isMethodItem x = false) :
    autoTrait (some (Ty.path lc (pre ++ [PathSegment.mk nm PathArguments.noArgs]))) input
        = MacroResult.compileError unsupportedMemberMsg
      ∧ ∀ (t : Ty) (out : Output), autoTrait (some t) input ≠ MacroResult.ok out := by
  constructor
  · have hf := forwardMethods_error_of_nonmethod input.ident input.items hbad
    simp only [autoTrait, collectSecondary_nomatch input.attrs 0 hattrs, removeAttrs]
    simp only [processAll, processTarget, List.getLast?_concat, hf]
  · intro t out hok
    obtain ⟨primary, secondaries, idxs, attrs2, _, _, _, _, hpa⟩ :=
      autoTrait_ok_inv (some t) input out hok
    obtain ⟨impl, himpl⟩ :=
      processAll_head input.ident input.items primary secondaries out.impls hpa
    obtain ⟨d, hfwd⟩ := processTarget_ok_fwd input.ident input.items primary impl himpl
    rw [forwardMethods_error_of_nonmethod d input.items hbad] at hfwd
    exact Except.noConfusion hfwd

/-- A trait declaration whose only member is an associated constant. -/
def constItemInput : ItemTrait :=
  { attrs := [], ident := "Tr", items := [TraitItem.otherItem "const N"] }

/-- Witness for C7 at a concrete declaration with an associated constant. -/
theorem nonmethod_member_rejected_witness :
    autoTrait (some (Ty.path false ([] ++ [PathSegment.mk "W" PathArguments.noArgs])))
        constItemInput = MacroResult.compileError unsupportedMemberMsg
      ∧ ∀ (t : Ty) (out : Output),
          autoTrait (some t) constItemInput ≠ MacroResult.ok out :=
  nonmethod_member_rejected constItemInput false [] "W"
    (by intro a ha; cases ha)
    ⟨TraitItem.otherItem "const N", List.mem_singleton.mpr rfl, rfl⟩

/-- A method `fn m(&self)` without a body. -/
def mRefL : TraitItemMethod :=
  { sig := { ident := "m", inputs := [FnArg.receiver true false] },
    default := none, semiToken := true }

/-- A trait `L` with a single bodyless `&self` method and no attributes. -/
def traitLInput : ItemTrait :=
  { attrs := [], ident := "L", items := [TraitItem.method mRefL] }

/-- C4: refuted by the code — for the target `Wrapper` (no generic
arguments) under trait `L`, the generated body calls `L::m(...)`: the name
in the call path is the trait's own name (`deref_name` defaults to
`trait_name`), not the target type `Wrapper` as the claim states. -/
theorem forward_callee_is_trait_name_not_target :
    autoTrait (some (tyIdent "Wrapper")) traitLInput = MacroResult.ok
      { decl := traitLInput,
        impls := [{ typeGenerics := none, traitName := "L",
                    target := tyIdent "Wrapper",
                    methods := [{ sig := mRefL.sig,
                                  default := some (Block.forward "L" "m" [MethodArg.derefSelf]),
                                  semiToken := false }] }] }
  ∧ ("L" : String) ≠ "Wrapper"
  ∧ ∀ margs, Block.forward "L" "m" margs ≠ Block.forward "Wrapper" "m" margs := by
  refine ⟨rfl, by decide, ?_⟩
  intro margs h
  injection h with h1 _ _
  exact absurd h1 (by decide)

/-- C4 (amended): when no generic argument of the target carries a bound
naming the trait being processed — including targets with no generic
arguments at all — the name called in every generated method body is the
trait's own name (the forwarder is invoked with `deref_name = trait_name`),
not the target type. -/
theorem default_forward_callee_is_trait_name
    (tn : String) (items : List TraitItem) (lc : Bool) (pre : List PathSegment)
    (nm : String) (impl : ImplBlock) :
    (processTarget tn items
        (Ty.path lc (pre ++ [PathSegment.mk nm PathArguments.noArgs])) = Except.ok impl →
      forwardMethods tn items = Except.ok impl.methods ∧
      ∀ m' ∈ impl.methods, ∃ n2 a2, m'.default = some (Block.forward tn n2 a2))
  ∧ ∀ gargs : List GenericArg, totalMatches tn gargs = 0 →
      processTarget tn items
        (Ty.path lc (pre ++ [PathSegment.mk nm (PathArguments.angle gargs)])) = Except.ok impl →
      forwardMethods tn items = Except.ok impl.methods ∧
      ∀ m' ∈ impl.methods, ∃ n2 a2, m'.default = some (Block.forward tn n2 a2) := by
  constructor
  · intro h
    simp only [processTarget, List.getLast?_concat] at h
    cases hf : forwardMethods tn items with
    | error e => rw [hf] at h; exact Except.noConfusion h
    | ok ms =>
      rw [hf] at h
      cases h
      exact ⟨rfl, forwardMethods_callee tn items ms hf⟩
  · intro gargs hz h
    simp only [processTarget, List.getLast?_concat,
      resolveArgs_zero tn gargs none hz] at h
    dsimp only [Option.getD] at h
    cases hf : forwardMethods tn items with
    | error e => rw [hf] at h; exact Except.noConfusion h
    | ok ms =>
      rw [hf] at h
      cases h
      exact ⟨rfl, forwardMethods_callee tn items ms hf⟩

/-- The impl block generated for trait `L` at target `Wrapper`. -/
def w4impl : ImplBlock :=
  { typeGenerics := none, traitName := "L",
    target := Ty.path false ([] ++ [PathSegment.mk "Wrapper" PathArguments.noArgs]),
    methods := [forwardedMethod "L" mRefL] }

/-- Witness for the amended C4 at trait `L`, target `Wrapper`. -/
theorem default_forward_callee_is_trait_name_witness :
    forwardMethods "L" [TraitItem.method mRefL] = Except.ok w4impl.methods
  ∧ ∀ m' ∈ w4impl.methods, ∃ n2 a2, m'.default = some (Block.forward "L" n2 a2) :=
  (default_forward_callee_is_trait_name "L" [TraitItem.method mRefL] false [] "Wrapper"
    w4impl).1 rfl

/-- C3: refuted by the code — for target `Box<T: Tr>` under trait `Tr`, the
emitted implementation header (`type_generics`) is the clone taken *before*
the constraint rewrite, so it still contains the constrained argument
`T: Tr`; the substitution of the plain parameter lands in the target type
after `for` (`Box<T>`), not in the header. -/
theorem impl_header_keeps_constraint :
    autoTrait (some (boxTy (GenericArg.constraint "T" [tbIdent "Tr"]))) bareTr
      = MacroResult.ok
        { decl := bareTr,
          impls := [{ typeGenerics := some [GenericArg.constraint "T" [tbIdent "Tr"]],
                      traitName := "Tr",
                      target := boxTy (plainArg "T"),
                      methods := [] }] }
  ∧ GenericArg.constraint "T" [tbIdent "Tr"] ≠ plainArg "T" := by
  refine ⟨rfl, ?_⟩
  intro h
  exact GenericArg.noConfusion h

/-- C3 (amended): for any target type with angle-bracketed generic
arguments that processing accepts, the emitted impl header is an exact
structural copy of the original argument list (constraints included, order
and count preserved), while every constrained argument is rewritten to the
unconstrained plain parameter in the target type expression after `for`,
preserving argument order and count; non-constraint arguments stay
unchanged there. -/
theorem impl_header_clone_and_target_rewrite
    (tn : String) (items : List TraitItem) (lc : Bool) (pre : List PathSegment)
    (nm : String) (gargs : List GenericArg) (impl : ImplBlock)
    (h : processTarget tn items
        (Ty.path lc (pre ++ [PathSegment.mk nm (PathArguments.angle gargs)]))
      = Except.ok impl) :
    impl.typeGenerics = some gargs
  ∧ impl.target
      = Ty.path lc (pre ++ [PathSegment.mk nm (PathArguments.angle (gargs.map rewriteArg))])
  ∧ (gargs.map rewriteArg).length = gargs.length
  ∧ (∀ i id bs, gargs.get? i = some (GenericArg.constraint id bs) →
      (gargs.map rewriteArg).get? i = some (plainArg id))
  ∧ (∀ i a, gargs.get? i = some a → isConstraintArg a = false →
      (gargs.map rewriteArg).get? i = some a) := by
  simp only [processTarget, List.getLast?_concat] at h
  cases hra : resolveArgs tn none gargs with
  | error e => rw [hra] at h; exact Except.noConfusion h
  | ok pr =>
    obtain ⟨dty, rw2⟩ := pr
    rw [hra] at h
    dsimp only at h
    cases hf : forwardMethods (dty.getD tn) items with
    | error e => rw [hf] at h; exact Except.noConfusion h
    | ok ms =>
      rw [hf] at h
      have hrw := resolveArgs_rw tn gargs none dty rw2 hra
      subst hrw
      cases h
      refine ⟨rfl, ?_, by simp, ?_, ?_⟩
      · show Ty.path lc (setLastArguments (pre ++ [PathSegment.mk nm (PathArguments.angle gargs)])
          (PathArguments.angle (gargs.map rewriteArg))) = _
        rw [setLastArguments_concat]
      · intro i id bs hg
        rw [List.get?_map, hg]
        rfl
      · intro i a hg hnc
        rw [List.get?_map, hg]
        cases a with
        | constraint id bs => simp [isConstraintArg] at hnc
        | type t => rfl
        | otherArg tg => rfl

/-- The impl block generated for trait `Tr` at target `Box<T: Tr>`. -/
def w3impl : ImplBlock :=
  { typeGenerics := some [GenericArg.constraint "T" [tbIdent "Tr"]],
    traitName := "Tr",
    target := boxTy (plainArg "T"),
    methods := [] }

/-- Witness for the amended C3 at target `Box<T: Tr>` under trait `Tr`. -/
theorem impl_header_clone_and_target_rewrite_witness :
    w3impl.typeGenerics = some [GenericArg.constraint "T" [tbIdent "Tr"]]
  ∧ w3impl.target = Ty.path false ([] ++ [PathSegment.mk "Box" (PathArguments.angle
      ([GenericArg.constraint "T" [tbIdent "Tr"]].map rewriteArg))])
  ∧ ([GenericArg.constraint "T" [tbIdent "Tr"]].map rewriteArg).length
      = [GenericArg.constraint "T" [tbIdent "Tr"]].length
  ∧ (∀ i id bs,
      [GenericArg.constraint "T" [tbIdent "Tr"]].get? i
          = some (GenericArg.constraint id bs) →
      ([GenericArg.constraint "T" [tbIdent "Tr"]].map rewriteArg).get? i
          = some (plainArg id))
  ∧ (∀ i a, [GenericArg.constraint "T" [tbIdent "Tr"]].get? i = some a →
      isConstraintArg a = false →
      ([GenericArg.constraint "T" [tbIdent "Tr"]].map rewriteArg).get? i = some a) :=
  impl_header_clone_and_target_rewrite "Tr" [] false [] "Box"
    [GenericArg.constraint "T" [tbIdent "Tr"]] w3impl rfl

/-- A method `fn foo(&self)` that already declares a (hand-written) body. -/
def handMethod : TraitItemMethod :=
  { sig := { ident := "foo", inputs := [FnArg.receiver true false] },
    default := some (Block.source "hand"), semiToken := false }

/-- A trait `Tr` whose only method already has a body. -/
def handInput : ItemTrait :=
  { attrs := [], ident := "Tr", items := [TraitItem.method handMethod] }

/-- C2: refuted by the code — the forwarder unconditionally sets
`method.default` on the cloned method, so a method that already declares a
body still receives the generated forwarding body in the emitted
implementation block (the hand-written body survives only in the emitted
trait declaration, which is never modified). -/
theorem pre_existing_body_replaced_in_impl :
    handMethod.default = some (Block.source "hand")
  ∧ autoTrait (some (tyIdent "W")) handInput = MacroResult.ok
      { decl := handInput,
        impls := [{ typeGenerics := none, traitName := "Tr",
                    target := tyIdent "W",
                    methods := [{ sig := handMethod.sig,
                                  default := some (Block.forward "Tr" "foo" [MethodArg.derefSelf]),
                                  semiToken := false }] }] }
  ∧ some (Block.forward "Tr" "foo" [MethodArg.derefSelf]) ≠ some (Block.source "hand") := by
  refine ⟨rfl, rfl, by decide⟩

/-- C2 (amended): the forwarder installs the generated forwarding body into
*every* method copy emitted in the implementation blocks, unconditionally
replacing any pre-existing default body there; the trait declaration's
member list (and thus every pre-existing body in the declaration) is
emitted unchanged, because the declaration is never modified. -/
theorem forwarder_installs_body_unconditionally
    (a : Option Ty) (input : ItemTrait) (out : Output)
    (h : autoTrait a input = MacroResult.ok out) :
    out.decl.items = input.items
  ∧ ∀ impl ∈ out.impls, ∀ i m, input.items.get? i = some (TraitItem.method m) →
      ∃ d, impl.methods.get? i = some (forwardedMethod d m) := by
  obtain ⟨primary, secondaries, idxs, attrs2, _, _, _, hdecl, hpa⟩ :=
    autoTrait_ok_inv a input out h
  constructor
  · rw [hdecl]
  · intro impl himpl i m hm
    obtain ⟨t, _, hpt⟩ :=
      processAll_mem input.ident input.items (primary :: secondaries) out.impls hpa impl himpl
    obtain ⟨d, hfwd⟩ := processTarget_ok_fwd input.ident input.items t impl hpt
    exact ⟨d, forwardMethods_get d input.items impl.methods hfwd i m hm⟩

/-- The full output for trait `Tr` (one method with a hand-written body) at
target `W`. -/
def w2out : Output :=
  { decl := handInput,
    impls := [{ typeGenerics := none, traitName := "Tr",
                target := tyIdent "W",
                methods := [forwardedMethod "Tr" handMethod] }] }

/-- Witness for the amended C2 at the concrete trait with a hand-written
body. -/
theorem forwarder_installs_body_unconditionally_witness :
    w2out.decl.items = handInput.items
  ∧ ∀ impl ∈ w2out.impls, ∀ i m, handInput.items.get? i = some (TraitItem.method m) →
      ∃ d, impl.methods.get? i = some (forwardedMethod d m) :=
  forwarder_installs_body_unconditionally (some (tyIdent "W")) handInput w2out rfl

/-- C8: refuted by the code — the declaration's member list is *not* mutated:
the emitted trait declaration is exactly the input declaration (its method
still has no body); generated bodies exist only inside the impl blocks. -/
theorem declaration_gains_no_default_bodies :
    mRefL.default = none
  ∧ autoTrait (some (tyIdent "Wrapper")) traitLInput = MacroResult.ok
      { decl := traitLInput,
        impls := [{ typeGenerics := none, traitName := "L",
                    target := tyIdent "Wrapper",
                    methods := [forwardedMethod "L" mRefL] }] }
  ∧ traitLInput.items = [TraitItem.method mRefL] := by
  refine ⟨rfl, rfl, rfl⟩

/-- C8 (amended): generation never mutates the trait declaration's member
list or name; the only in-place change to the declaration is annotation
removal (its attribute list is the result of the removal loop), and the
emitted declaration carries no generated default bodies — those live only
in the per-target method copies of the impl blocks. -/
theorem declaration_member_list_never_mutated
    (a : Option Ty) (input : ItemTrait) (out : Output)
    (h : autoTrait a input = MacroResult.ok out) :
    out.decl.items = input.items
  ∧ out.decl.ident = input.ident
  ∧ ∃ idxs, removeAttrs input.attrs idxs = some out.decl.attrs := by
  obtain ⟨primary, secondaries, idxs, attrs2, _, _, hrm, hdecl, _⟩ :=
    autoTrait_ok_inv a input out h
  refine ⟨by rw [hdecl], by rw [hdecl], idxs, ?_⟩
  rw [hdecl]
  exact hrm

/-- The full output for trait `L` at target `Wrapper`. -/
def w8out : Output :=
  { decl := traitLInput,
    impls := [{ typeGenerics := none, traitName := "L",
                target := tyIdent "Wrapper",
                methods := [forwardedMethod "L" mRefL] }] }

/-- Witness for the amended C8 at trait `L`, target `Wrapper`. -/
theorem declaration_member_list_never_mutated_witness :
    w8out.decl.items = traitLInput.items
  ∧ w8out.decl.ident = traitLInput.ident
  ∧ ∃ idxs, removeAttrs traitLInput.attrs idxs = some w8out.decl.attrs :=
  declaration_member_list_never_mutated (some (tyIdent "Wrapper")) traitLInput w8out rfl

/-- C9: an invocation with one primary target and one secondary annotation
whose token tree is a parenthesized target specification produces exactly
two implementation blocks — each the result of processing its own target,
ordered primary first and then the secondary — and the run is identical to
the one where the secondary specification arrives without the parenthesis
layer (one `Type::Paren` layer is stripped transparently). -/
theorem parenthesized_secondary_yields_two_impls
    (input : ItemTrait) (p s : Ty) (a : Attribute) (pre post : List Attribute)
    (i1 i2 : ImplBlock)
    (hattrs : input.attrs = pre ++ a :: post)
    (ha : isAutoTraitAttr a = true)
    (htok : a.parsedTokens = some (Ty.paren s))
    (hpre : ∀ b ∈ pre, isAutoTraitAttr b = false)
    (hpost : ∀ b ∈ post, isAutoTraitAttr b = false)
    (h1 : processTarget input.ident input.items p = Except.ok i1)
    (h2 : processTarget input.ident input.items s = Except.ok i2) :
    ∃ declOut : ItemTrait,
      autoTrait (some p) input = MacroResult.ok { decl := declOut, impls := [i1, i2] }
    ∧ autoTrait (some p)
          { input with attrs := pre ++ { a with parsedTokens := some s } :: post }
        = MacroResult.ok { decl := declOut, impls := [i1, i2] } := by
  cases s with
  | paren e =>
    exfalso
    simp only [processTarget] at h2
    exact Except.noConfusion h2
  | other tg =>
    exfalso
    simp only [processTarget] at h2
    exact Except.noConfusion h2
  | path lcs segss =>
    obtain ⟨attrs2, hsw⟩ : ∃ ys, swapRemove (pre ++ a :: post) pre.length = some ys := by
      rw [swapRemove_mid]
      exact ⟨_, rfl⟩
    have hcol : collectSecondary (pre ++ a :: post) 0
        = Except.ok ([Ty.path lcs segss], [pre.length]) := by
      rw [collectSecondary_append_nomatch pre (a :: post) 0 hpre]
      simp only [collectSecondary]
      rw [show isIdentSegs a.pathLeadingColon a.pathSegments "auto_trait" = true from ha]
      rw [htok]
      rw [collectSecondary_nomatch post (0 + pre.length + 1) hpost]
      simp
    have hcol2 : collectSecondary (pre ++ { a with parsedTokens := some (Ty.path lcs segss) } :: post) 0
        = Except.ok ([Ty.path lcs segss], [pre.length]) := by
      rw [collectSecondary_append_nomatch pre _ 0 hpre]
      simp only [collectSecondary]
      rw [show isIdentSegs ({ a with parsedTokens := some (Ty.path lcs segss) } : Attribute).pathLeadingColon
            ({ a with parsedTokens := some (Ty.path lcs segss) } : Attribute).pathSegments "auto_trait" = true from ha]
      rw [collectSecondary_nomatch post (0 + pre.length + 1) hpost]
      simp
    have hrem : removeAttrs (pre ++ a :: post) [pre.length] = some attrs2 := by
      simp only [removeAttrs, hsw]
    have hsw2 : swapRemove (pre ++ { a with parsedTokens := some (Ty.path lcs segss) } :: post) pre.length
        = some attrs2 := by
      rw [swapRemove_mid_indep pre post _ a]
      exact hsw
    have hrem2 : removeAttrs (pre ++ { a with parsedTokens := some (Ty.path lcs segss) } :: post) [pre.length]
        = some attrs2 := by
      simp only [removeAttrs, hsw2]
    have hpa : processAll input.ident input.items [p, Ty.path lcs segss]
        = Except.ok [i1, i2] := by
      simp only [processAll, h1, h2]
    refine ⟨{ input with attrs := attrs2 }, ?_, ?_⟩
    · simp only [autoTrait, hattrs, hcol, hrem, hpa]
    · simp only [autoTrait, hcol2, hrem2, hpa]

/-- A trait `Tr` carrying one secondary annotation for target `B`. -/
def w9input : ItemTrait :=
  { attrs := [atAttr (tyIdent "B")], ident := "Tr", items := [] }

/-- The impl block for trait `Tr` at target `A`. -/
def w9i1 : ImplBlock :=
  { typeGenerics := none, traitName := "Tr", target := tyIdent "A", methods := [] }

/-- The impl block for trait `Tr` at target `B`. -/
def w9i2 : ImplBlock :=
  { typeGenerics := none, traitName := "Tr", target := tyIdent "B", methods := [] }

/-- Witness for C9: primary `A`, parenthesized secondary `B`. -/
theorem parenthesized_secondary_yields_two_impls_witness :
    ∃ declOut : ItemTrait,
      autoTrait (some (tyIdent "A")) w9input
        = MacroResult.ok { decl := declOut, impls := [w9i1, w9i2] }
    ∧ autoTrait (some (tyIdent "A"))
          { w9input with attrs :=
              [] ++ { atAttr (tyIdent "B") with parsedTokens := some (tyIdent "B") } :: [] }
        = MacroResult.ok { decl := declOut, impls := [w9i1, w9i2] } :=
  parenthesized_secondary_yields_two_impls w9input (tyIdent "A") (tyIdent "B")
    (atAttr (tyIdent "B")) [] [] w9i1 w9i2 rfl rfl rfl
    (by intro b hb; cases hb) (by intro b hb; cases hb) rfl rfl
